import Mathlib

/-!
Shallow embedding of src/holders-snapshot.js (the variant with the airdrop
allocation feature, whose functions are formatUnits, parseUnits,
parseCliArgs and main).  Strings are modelled as lists of characters,
JavaScript BigInt values that are always non-negative as natural numbers,
JavaScript numbers holding integers as integers, and the insertion-ordered
JavaScript Map as an association list whose set operation updates the first
matching key in place and appends unseen keys at the end.
-/

deriving instance DecidableEq for Except

/-! ## Characters and strings -/

/-- Decimal digit test, modelling the regex character class from 0 to 9. -/
def isDigitChar (c : Char) : Bool :=
  decide (48 ≤ c.toNat) && decide (c.toNat ≤ 57)

/-- Numeric value of a decimal digit character. -/
def digitVal (c : Char) : Nat := c.toNat - 48

/-- Decimal digit character for a value below ten. -/
def digitChar : Nat → Char
  | 0 => '0'
  | 1 => '1'
  | 2 => '2'
  | 3 => '3'
  | 4 => '4'
  | 5 => '5'
  | 6 => '6'
  | 7 => '7'
  | 8 => '8'
  | 9 => '9'
  | _ => '*'

/-- Interpretation of a digit string as a natural number, as BigInt does on
the all-digit strings produced by parseUnits. -/
def parseDigits (s : List Char) : Nat :=
  s.foldl (fun acc c => 10 * acc + digitVal c) 0

/-- Auxiliary digit printer: fuel-indexed form of the loop that repeatedly
divides by ten, emitting digits from the least significant end. -/
def digitCharsAux : Nat → Nat → List Char → List Char
  | 0, _, acc => acc
  | fuel + 1, n, acc =>
    let acc2 := digitChar (n % 10) :: acc
    if n < 10 then acc2 else digitCharsAux fuel (n / 10) acc2

/-- Decimal representation of a natural number, modelling BigInt.toString. -/
def natRepr (n : Nat) : List Char := digitCharsAux (n + 1) n []

/-- Whitespace characters stripped by String.prototype.trim (ASCII range). -/
def isJsWhitespace (c : Char) : Bool :=
  decide (c.toNat = 32) || decide (c.toNat = 9) || decide (c.toNat = 10) ||
    decide (c.toNat = 13) || decide (c.toNat = 11) || decide (c.toNat = 12)

/-- Model of String.prototype.trim: drop whitespace from both ends. -/
def jsTrim (s : List Char) : List Char :=
  (((s.dropWhile isJsWhitespace).reverse.dropWhile isJsWhitespace)).reverse

/-- Model of String.prototype.padStart with a single pad character. -/
def padLeft (s : List Char) (n : Nat) (c : Char) : List Char :=
  List.replicate (n - s.length) c ++ s

/-- Model of String.prototype.padEnd with a single pad character. -/
def padRight (s : List Char) (n : Nat) (c : Char) : List Char :=
  s ++ List.replicate (n - s.length) c

/-- Strip trailing zero characters, modelling replace of the regex that
matches a final run of zeros with the empty string. -/
def rstripZeros (s : List Char) : List Char :=
  (s.reverse.dropWhile (fun c => decide (c = '0'))).reverse

/-- Model of the regex that accepts one or more digits optionally followed
by a dot and one or more digits. -/
def decMatches (s : List Char) : Bool :=
  (!(s.takeWhile isDigitChar).isEmpty) &&
    (match s.dropWhile isDigitChar with
     | [] => true
     | c :: rest2 => decide (c = '.') && (!rest2.isEmpty) && rest2.all isDigitChar)

/-- Lowercasing of an address, modelling String.prototype.toLowerCase on
the ASCII addresses this tool handles. -/
def lowerAscii (s : List Char) : List Char := s.map Char.toLower

/-! ## Unit converter -/

/-- Error kinds raised by parseUnits. -/
inductive UnitsError where
  | invalidAmount
  | precisionOverflow
  deriving DecidableEq, Repr

/-- Translation of formatUnits: render a raw integer amount with the given
number of decimal places, stripping trailing fractional zeros. -/
def formatUnits (raw : Nat) (decimals : Int) : List Char :=
  if decimals ≤ 0 then natRepr raw
  else
    let d := decimals.toNat
    let s := padLeft (natRepr raw) (d + 1) '0'
    let integerPart := s.take (s.length - d)
    let fractionalPart := rstripZeros (s.drop (s.length - d))
    if fractionalPart.isEmpty then integerPart
    else integerPart ++ '.' :: fractionalPart

/-- Translation of parseUnits: trim the input, require the digits-dot-digits
shape, reject fractional parts longer than the decimals count, and read the
integer obtained by appending the zero-padded fractional part. -/
def parseUnits (amount : List Char) (decimals : Int) : Except UnitsError Nat :=
  let text := jsTrim amount
  if decMatches text then
    let integerPart := text.takeWhile (fun c => !decide (c = '.'))
    let fractionPart := (text.dropWhile (fun c => !decide (c = '.'))).drop 1
    if (fractionPart.length : Int) > decimals then .error .precisionOverflow
    else
      .ok (parseDigits (integerPart ++
        (if 0 < decimals then padRight fractionPart decimals.toNat '0' else [])))
  else .error .invalidAmount

/-- Rendering rule transcribed from the specification text for comparison
with formatUnits: with non-positive decimals the plain decimal string,
otherwise left-pad to at least decimals plus one digits, split off the last
decimals digits as the fractional part (here taken from the reversed
string), strip its trailing zeros, and join with a dot only when the
stripped fractional part is non-empty. -/
def formatUnitsSpec (raw : Nat) (decimals : Int) : List Char :=
  if decimals ≤ 0 then natRepr raw
  else
    let d := decimals.toNat
    let s := padLeft (natRepr raw) (d + 1) '0'
    let integerPart := (s.reverse.drop d).reverse
    let fractionalPart := rstripZeros ((s.reverse.take d).reverse)
    if fractionalPart.isEmpty then integerPart
    else integerPart ++ '.' :: fractionalPart

/-! ## Insertion-ordered map -/

/-- Association-list model of a JavaScript Map from address to amount. -/
abbrev AMap : Type := List (List Char × Nat)

/-- The empty map. -/
def AMap.empty : AMap := []

/-- Lookup, returning the value of the first entry with the given key. -/
def AMap.get : AMap → List Char → Option Nat
  | [], _ => none
  | (k2, v) :: rest, k => if k2 = k then some v else AMap.get rest k

/-- Map.set semantics: update the first entry with the key in place, or
append a fresh entry at the end. -/
def AMap.set : AMap → List Char → Nat → AMap
  | [], k, v => [(k, v)]
  | (k2, v2) :: rest, k, v =>
    if k2 = k then (k2, v) :: rest else (k2, v2) :: AMap.set rest k v

/-- Sum of all values stored in the map. -/
def AMap.sumValues (m : AMap) : Nat := (m.map (fun p => p.2)).sum

/-! ## Allocation engine -/

/-- A holder row derived from the balance map: an owner address paired with
its aggregated raw balance. -/
structure HolderRow where
  address : List Char
  rawBalance : Nat
  deriving DecidableEq, Repr

/-- Error raised when allocation finds no eligible balance. -/
inductive AllocError where
  | noEligibleHolders
  deriving DecidableEq, Repr

/-- Exclusion test: the excluded set stores lowercased addresses and row
addresses are lowercased before membership is checked. -/
def isExcludedAddr (excluded : List (List Char)) (a : List Char) : Bool :=
  decide (lowerAscii a ∈ excluded)

/-- Rows that survive the exclusion filter. -/
def eligibleRows (rows : List HolderRow) (excluded : List (List Char)) : List HolderRow :=
  rows.filter (fun r => !isExcludedAddr excluded r.address)

/-- Sum of the raw balances of the eligible rows. -/
def eligibleTotalRaw (rows : List HolderRow) (excluded : List (List Char)) : Nat :=
  ((eligibleRows rows excluded).map (fun r => r.rawBalance)).sum

/-- Per-row amount written by the allocation loop before the remainder step:
zero for excluded rows, the floor share for eligible ones. -/
def rowShare (totalRaw eligTotal : Nat) (excluded : List (List Char))
    (r : HolderRow) : Nat :=
  if isExcludedAddr excluded r.address then 0
  else totalRaw * r.rawBalance / eligTotal

/-- One step of the allocation loop: record the row's share in the map and
add it to the running allocated sum (excluded rows contribute nothing). -/
def allocStep (totalRaw eligTotal : Nat) (excluded : List (List Char))
    (acc : AMap × Nat) (r : HolderRow) : AMap × Nat :=
  if isExcludedAddr excluded r.address then (acc.1.set r.address 0, acc.2)
  else
    let share := totalRaw * r.rawBalance / eligTotal
    (acc.1.set r.address share, acc.2 + share)

/-- Translation of the airdrop branch of main: fail when no eligible balance
exists, otherwise give every row its floor share (zero when excluded) and
add the whole positive remainder to the first eligible row. -/
def allocate (rows : List HolderRow) (totalRaw : Nat)
    (excluded : List (List Char)) : Except AllocError AMap :=
  if eligibleTotalRaw rows excluded = 0 then .error .noEligibleHolders
  else
    let p := rows.foldl
      (allocStep totalRaw (eligibleTotalRaw rows excluded) excluded) (AMap.empty, 0)
    let remainder := totalRaw - p.2
    if 0 < remainder then
      match (eligibleRows rows excluded).head? with
      | some first =>
        .ok (p.1.set first.address ((p.1.get first.address).getD 0 + remainder))
      | none => .ok p.1
    else .ok p.1

/-! ## Pagination aggregator -/

/-- Pagination metadata of a fetched connection. -/
structure PageInfo where
  hasNextPage : Bool
  deriving DecidableEq, Repr

/-- One owner-and-balance entry of a fetched page. -/
structure PageNode where
  owner : List Char
  balance : Nat
  deriving DecidableEq, Repr

/-- The connection object found at data.objects, with the node list and the
page info both possibly absent in the payload. -/
structure Connection where
  nodes : Option (List PageNode)
  pageInfo : Option PageInfo
  deriving DecidableEq, Repr

/-- A fetched payload: the connection object at data.objects, or nothing
when that path is absent. -/
abbrev Payload : Type := Option Connection

/-- Errors of the pagination loop.  The second constructor marks the model
running out of supplied payloads while the real loop would fetch again. -/
inductive AggError where
  | malformedResponse
  | outOfPages
  deriving DecidableEq, Repr

/-- Add one node's balance into the running total of its owner, creating
the entry on first sight. -/
def addNode (m : AMap) (n : PageNode) : AMap :=
  m.set n.owner ((m.get n.owner).getD 0 + n.balance)

/-- Fold a page's node list into the balance map. -/
def applyNodes (m : AMap) (ns : List PageNode) : AMap := ns.foldl addNode m

/-- Continuation flag of a connection: hasNextPage when page info is
present, otherwise the falsy absent value. -/
def hasNext (c : Connection) : Bool :=
  match c.pageInfo with
  | some info => info.hasNextPage
  | none => false

/-- One iteration of the pagination loop body: reject a payload missing the
connection, otherwise fold the nodes (an absent node list counts as empty)
and report whether the loop should continue. -/
def stepPage (m : AMap) (p : Payload) : Except AggError (AMap × Bool) :=
  match p with
  | none => .error .malformedResponse
  | some c => .ok (applyNodes m (c.nodes.getD []), hasNext c)

/-- The pagination loop over a supplied stream of payloads, stopping after
the first page whose continuation flag is off. -/
def runPages : List Payload → AMap → Except AggError AMap
  | [], _ => .error .outOfPages
  | p :: rest, m =>
    match stepPage m p with
    | .error e => .error e
    | .ok (m2, cont) => if cont then runPages rest m2 else .ok m2

/-- Sum of the balances carried by the nodes owned by one owner. -/
def ownerTotal (o : List Char) (ns : List PageNode) : Nat :=
  ((ns.filter (fun n => decide (n.owner = o))).map (fun n => n.balance)).sum

/-! ## Command-line argument parsing -/

/-- Error kinds raised by parseCliArgs. -/
inductive CliError where
  | missingCoinAddress
  | missingAirdropValue
  | missingExcludeValue
  | unknownArgument
  | excludeWithoutAirdrop
  deriving DecidableEq, Repr

/-- Parsed command line: the coin address, the optional airdrop amount and
the excluded addresses in insertion order. -/
structure CliArgs where
  coinAddress : List Char
  airdropAmount : Option (List Char)
  excludedAddresses : List (List Char)
  deriving DecidableEq, Repr

/-- The airdrop flag token. -/
def airdropFlag : List Char := "--airdrop".toList

/-- The exclude flag token. -/
def excludeFlag : List Char := "--exclude".toList

/-- Test for a leading double dash, modelling startsWith. -/
def startsDashDash (s : List Char) : Bool := decide (s.take 2 = ['-', '-'])

/-- Model of String.prototype.split on a comma. -/
def splitComma : List Char → List (List Char)
  | [] => [[]]
  | c :: rest =>
    match splitComma rest with
    | [] => [[]]
    | g :: gs => if c = ',' then [] :: g :: gs else (c :: g) :: gs

/-- Set.add semantics on the insertion-ordered list model of a Set. -/
def addUnique (acc : List (List Char)) (x : List Char) : List (List Char) :=
  if x ∈ acc then acc else acc ++ [x]

/-- Process one exclude flag value: split on commas, trim and lowercase
each piece, and add every non-empty result to the set. -/
def addSplitAddresses (acc : List (List Char)) (value : List Char) : List (List Char) :=
  (splitComma value).foldl
    (fun acc2 a =>
      let normalized := lowerAscii (jsTrim a)
      if normalized = [] then acc2 else addUnique acc2 normalized)
    acc

/-- The flag-reading loop of parseCliArgs, walking the arguments after the
coin address and consuming each flag together with its value. -/
def parseArgsLoop : List (List Char) → Option (List Char) → List (List Char) →
    Except CliError (Option (List Char) × List (List Char))
  | [], airdrop, excluded => .ok (airdrop, excluded)
  | arg :: rest, airdrop, excluded =>
    if arg = airdropFlag then
      match rest with
      | [] => .error .missingAirdropValue
      | v :: rest2 =>
        if v = [] ∨ startsDashDash v then .error .missingAirdropValue
        else parseArgsLoop rest2 (some (jsTrim v)) excluded
    else if arg = excludeFlag then
      match rest with
      | [] => .error .missingExcludeValue
      | v :: rest2 =>
        if v = [] ∨ startsDashDash v then .error .missingExcludeValue
        else parseArgsLoop rest2 airdrop (addSplitAddresses excluded v)
    else .error .unknownArgument

/-- Translation of parseCliArgs: require a coin address that is not a flag,
read the optional flags, and reject an exclude set without an airdrop. -/
def parseCliArgs (argv : List (List Char)) : Except CliError CliArgs :=
  match argv with
  | [] => .error .missingCoinAddress
  | first :: rest =>
    let coinAddress := jsTrim first
    if coinAddress = [] ∨ startsDashDash coinAddress then .error .missingCoinAddress
    else
      match parseArgsLoop rest none [] with
      | .error e => .error e
      | .ok (airdrop, excluded) =>
        if excluded ≠ [] ∧ airdrop = none then .error .excludeWithoutAirdrop
        else .ok ⟨coinAddress, airdrop, excluded⟩

/-! ## Lemmas about the map model -/

theorem AMap.get_set_self (m : AMap) (k : List Char) (v : Nat) :
    (m.set k v).get k = some v := by
  induction m with
  | nil => simp [AMap.set, AMap.get]
  | cons p rest ih =>
    obtain ⟨k2, v2⟩ := p
    by_cases h : k2 = k
    · simp [AMap.set, h, AMap.get]
    · simp [AMap.set, h, AMap.get, ih]

theorem AMap.get_set_ne (m : AMap) (k k2 : List Char) (v : Nat) (h : k2 ≠ k) :
    (m.set k v).get k2 = m.get k2 := by
  induction m with
  | nil =>
    have hk : k ≠ k2 := Ne.symm h
    simp [AMap.set, AMap.get, hk]
  | cons p rest ih =>
    obtain ⟨a, w⟩ := p
    by_cases ha : a = k
    · subst ha
      have hak2 : a ≠ k2 := fun hh => h hh.symm
      simp [AMap.set, AMap.get, hak2]
    · by_cases ha2 : a = k2
      · subst ha2
        simp [AMap.set, AMap.get, h, Ne.symm h]
      · simp [AMap.set, AMap.get, ha, ha2, ih]

theorem AMap.set_of_get_none (m : AMap) (k : List Char) (v : Nat)
    (h : m.get k = none) : m.set k v = m ++ [(k, v)] := by
  induction m with
  | nil => simp [AMap.set]
  | cons p rest ih =>
    obtain ⟨a, w⟩ := p
    by_cases ha : a = k
    · simp [AMap.get, ha] at h
    · simp [AMap.get, ha] at h
      simp [AMap.set, ha, ih h]

theorem AMap.get_append_of_none (m1 m2 : AMap) (k : List Char)
    (h : m1.get k = none) : (m1 ++ m2).get k = m2.get k := by
  induction m1 with
  | nil => simp
  | cons p rest ih =>
    obtain ⟨a, w⟩ := p
    by_cases ha : a = k
    · simp [AMap.get, ha] at h
    · simp [AMap.get, ha] at h
      simpa [AMap.get, ha] using ih h

theorem AMap.sumValues_append (m1 m2 : AMap) :
    (m1 ++ m2).sumValues = m1.sumValues + m2.sumValues := by
  simp [AMap.sumValues]

theorem AMap.sumValues_set (m : AMap) (k : List Char) (v w : Nat)
    (h : m.get k = some w) : (m.set k v).sumValues + w = m.sumValues + v := by
  induction m with
  | nil => simp [AMap.get] at h
  | cons p rest ih =>
    obtain ⟨a, u⟩ := p
    by_cases ha : a = k
    · simp [AMap.get, ha] at h
      subst h
      simp [AMap.set, ha, AMap.sumValues]
      omega
    · simp [AMap.get, ha] at h
      have := ih h
      simp [AMap.set, ha, AMap.sumValues] at this ⊢
      omega

theorem AMap.get_rowMap (f : HolderRow → Nat) :
    ∀ (rows : List HolderRow) (r : HolderRow), r ∈ rows →
      (rows.map (fun r2 => r2.address)).Nodup →
      AMap.get (rows.map (fun r2 => (r2.address, f r2))) r.address = some (f r) := by
  intro rows
  induction rows with
  | nil => intro r hr; simp at hr
  | cons r0 rest ih =>
    intro r hr hnodup
    simp only [List.map_cons, List.nodup_cons] at hnodup
    rcases List.mem_cons.mp hr with h | h
    · subst h
      simp [AMap.get]
    · have haddr : r0.address ≠ r.address := by
        intro he
        exact hnodup.1 (he ▸ List.mem_map.mpr ⟨r, h, rfl⟩)
      simp only [List.map_cons, AMap.get, if_neg haddr]
      exact ih r h hnodup.2

theorem AMap.sumValues_rowMap (f : HolderRow → Nat) (rows : List HolderRow) :
    AMap.sumValues (rows.map (fun r2 => (r2.address, f r2))) = (rows.map f).sum := by
  simp only [AMap.sumValues, List.map_map]
  rfl

/-! ## Lemmas about the allocation engine -/

theorem div_add_div_le (a b c : Nat) (hc : 0 < c) : a / c + b / c ≤ (a + b) / c := by
  rw [Nat.le_div_iff_mul_le hc, Nat.add_mul]
  exact Nat.add_le_add (Nat.div_mul_le_self a c) (Nat.div_mul_le_self b c)

theorem sum_map_div_le (t T : Nat) (hT : 0 < T) :
    ∀ l : List Nat, (l.map (fun b => t * b / T)).sum ≤ t * l.sum / T := by
  intro l
  induction l with
  | nil => simp
  | cons b rest ih =>
    calc (((b :: rest).map (fun b2 => t * b2 / T)).sum)
        = t * b / T + (rest.map (fun b2 => t * b2 / T)).sum := by simp
      _ ≤ t * b / T + t * rest.sum / T := Nat.add_le_add_left ih _
      _ ≤ (t * b + t * rest.sum) / T := div_add_div_le _ _ _ hT
      _ = t * (b :: rest).sum / T := by rw [List.sum_cons, Nat.mul_add]

theorem sum_rowShare_eq (t T : Nat) (exc : List (List Char)) :
    ∀ rows : List HolderRow,
      (rows.map (rowShare t T exc)).sum =
        ((eligibleRows rows exc).map (fun r => t * r.rawBalance / T)).sum := by
  intro rows
  induction rows with
  | nil => simp [eligibleRows]
  | cons r rest ih =>
    by_cases hr : isExcludedAddr exc r.address
    · simp [eligibleRows, List.filter_cons, hr, rowShare] at ih ⊢
      exact ih
    · simp [eligibleRows, List.filter_cons, hr, rowShare] at ih ⊢
      exact ih

theorem allocated_le_total (rows : List HolderRow) (t : Nat) (exc : List (List Char))
    (hT : 0 < eligibleTotalRaw rows exc) :
    (rows.map (rowShare t (eligibleTotalRaw rows exc) exc)).sum ≤ t := by
  rw [sum_rowShare_eq]
  have h1 := sum_map_div_le t (eligibleTotalRaw rows exc) hT
    ((eligibleRows rows exc).map (fun r => r.rawBalance))
  rw [List.map_map] at h1
  have h2 : ((eligibleRows rows exc).map (fun r => r.rawBalance)).sum =
      eligibleTotalRaw rows exc := rfl
  rw [h2, Nat.mul_div_cancel _ hT] at h1
  exact h1

theorem allocFold_eq (t T : Nat) (exc : List (List Char)) :
    ∀ (rows : List HolderRow) (m0 : AMap) (s0 : Nat),
      (∀ r ∈ rows, m0.get r.address = none) →
      (rows.map (fun r => r.address)).Nodup →
      rows.foldl (allocStep t T exc) (m0, s0) =
        (m0 ++ rows.map (fun r => (r.address, rowShare t T exc r)),
          s0 + (rows.map (rowShare t T exc)).sum) := by
  intro rows
  induction rows with
  | nil => intro m0 s0 _ _; simp
  | cons r rest ih =>
    intro m0 s0 hfresh hnodup
    simp only [List.map_cons, List.nodup_cons] at hnodup
    have hr0 : m0.get r.address = none := hfresh r (List.mem_cons_self r rest)
    have hstep : allocStep t T exc (m0, s0) r =
        (m0 ++ [(r.address, rowShare t T exc r)], s0 + rowShare t T exc r) := by
      by_cases hx : isExcludedAddr exc r.address
      · simp [allocStep, hx, rowShare, AMap.set_of_get_none m0 r.address 0 hr0]
      · simp [allocStep, hx, rowShare, AMap.set_of_get_none m0 r.address _ hr0]
    have hfresh2 : ∀ r2 ∈ rest,
        (m0 ++ [(r.address, rowShare t T exc r)]).get r2.address = none := by
      intro r2 hr2
      have hne : r.address ≠ r2.address := by
        intro he
        exact hnodup.1 (he ▸ List.mem_map.mpr ⟨r2, hr2, rfl⟩)
      rw [AMap.get_append_of_none _ _ _ (hfresh r2 (List.mem_cons_of_mem r hr2))]
      simp [AMap.get, hne]
    calc (r :: rest).foldl (allocStep t T exc) (m0, s0)
        = rest.foldl (allocStep t T exc)
            (m0 ++ [(r.address, rowShare t T exc r)], s0 + rowShare t T exc r) := by
          rw [List.foldl_cons, hstep]
      _ = (m0 ++ [(r.address, rowShare t T exc r)] ++
            rest.map (fun r2 => (r2.address, rowShare t T exc r2)),
            s0 + rowShare t T exc r + (rest.map (rowShare t T exc)).sum) :=
          ih _ _ hfresh2 hnodup.2
      _ = (m0 ++ (r :: rest).map (fun r2 => (r2.address, rowShare t T exc r2)),
            s0 + ((r :: rest).map (rowShare t T exc)).sum) := by
          simp [List.append_assoc]
          omega

theorem allocate_ok_shape (rows : List HolderRow) (t : Nat) (exc : List (List Char))
    (hnodup : (rows.map (fun r => r.address)).Nodup)
    (hT : eligibleTotalRaw rows exc ≠ 0) :
    ∃ f, (eligibleRows rows exc).head? = some f ∧
      allocate rows t exc = .ok (
        if 0 < t - (rows.map (rowShare t (eligibleTotalRaw rows exc) exc)).sum then
          AMap.set
            (rows.map (fun r => (r.address, rowShare t (eligibleTotalRaw rows exc) exc r)))
            f.address
            (rowShare t (eligibleTotalRaw rows exc) exc f +
              (t - (rows.map (rowShare t (eligibleTotalRaw rows exc) exc)).sum))
        else
          rows.map (fun r => (r.address, rowShare t (eligibleTotalRaw rows exc) exc r))) := by
  have hfold := allocFold_eq t (eligibleTotalRaw rows exc) exc rows AMap.empty 0
    (fun r _ => rfl) hnodup
  cases he : eligibleRows rows exc with
  | nil =>
    exfalso
    apply hT
    simp [eligibleTotalRaw, he]
  | cons f fs =>
    refine ⟨f, rfl, ?_⟩
    have hfmem : f ∈ rows := by
      have : f ∈ eligibleRows rows exc := by rw [he]; exact List.mem_cons_self f fs
      exact List.mem_of_mem_filter this
    have hget : AMap.get
        (rows.map (fun r2 => (r2.address, rowShare t (eligibleTotalRaw rows exc) exc r2)))
        f.address = some (rowShare t (eligibleTotalRaw rows exc) exc f) :=
      AMap.get_rowMap _ rows f hfmem hnodup
    unfold allocate
    rw [if_neg hT, hfold]
    simp only [AMap.empty, List.nil_append, Nat.zero_add, he, List.head?_cons, hget,
      Option.getD_some]
    by_cases hrem : 0 < t - (rows.map (rowShare t (eligibleTotalRaw rows exc) exc)).sum
    · rw [if_pos hrem, if_pos hrem]
    · rw [if_neg hrem, if_neg hrem]

theorem allocate_exists_ok (rows : List HolderRow) (t : Nat) (exc : List (List Char))
    (hT : eligibleTotalRaw rows exc ≠ 0) :
    ∃ m, allocate rows t exc = .ok m := by
  unfold allocate
  rw [if_neg hT]
  dsimp only
  split
  · split <;> exact ⟨_, rfl⟩
  · exact ⟨_, rfl⟩

theorem head_mem_of_head?_eq {α : Type} {l : List α} {a : α}
    (h : l.head? = some a) : a ∈ l := by
  cases l with
  | nil => cases h
  | cons g gs =>
    simp only [List.head?_cons, Option.some.injEq] at h
    rw [← h]
    exact List.mem_cons_self g gs

/-- C1: allocation exactness.  For holder rows with pairwise-distinct
addresses (rows derived from the balance map always have distinct owner
keys) and a positive eligible raw-balance total, allocate succeeds and the
values of the returned allocation map sum to exactly the requested total:
no units are lost or duplicated. -/
theorem allocate_sum_eq_total (rows : List HolderRow) (totalRaw : Nat)
    (excluded : List (List Char))
    (hnodup : (rows.map (fun r => r.address)).Nodup)
    (hpos : 0 < eligibleTotalRaw rows excluded) :
    ∃ m, allocate rows totalRaw excluded = .ok m ∧ m.sumValues = totalRaw := by
  have hT : eligibleTotalRaw rows excluded ≠ 0 := by omega
  obtain ⟨f, hf, heq⟩ := allocate_ok_shape rows totalRaw excluded hnodup hT
  have hfelig : f ∈ eligibleRows rows excluded := head_mem_of_head?_eq hf
  have hfmem : f ∈ rows := List.mem_of_mem_filter hfelig
  have hle : (rows.map (rowShare totalRaw (eligibleTotalRaw rows excluded) excluded)).sum
      ≤ totalRaw := allocated_le_total rows totalRaw excluded hpos
  have hsum1 : AMap.sumValues (rows.map (fun r =>
      (r.address, rowShare totalRaw (eligibleTotalRaw rows excluded) excluded r))) =
      (rows.map (rowShare totalRaw (eligibleTotalRaw rows excluded) excluded)).sum :=
    AMap.sumValues_rowMap _ rows
  by_cases hrem : 0 < totalRaw -
      (rows.map (rowShare totalRaw (eligibleTotalRaw rows excluded) excluded)).sum
  · rw [if_pos hrem] at heq
    refine ⟨_, heq, ?_⟩
    have hget := AMap.get_rowMap
      (rowShare totalRaw (eligibleTotalRaw rows excluded) excluded) rows f hfmem hnodup
    have hs := AMap.sumValues_set _ f.address
      (rowShare totalRaw (eligibleTotalRaw rows excluded) excluded f +
        (totalRaw - (rows.map
          (rowShare totalRaw (eligibleTotalRaw rows excluded) excluded)).sum))
      (rowShare totalRaw (eligibleTotalRaw rows excluded) excluded f) hget
    rw [hsum1] at hs
    omega
  · rw [if_neg hrem] at heq
    refine ⟨_, heq, ?_⟩
    rw [hsum1]
    omega

/-- Witness for the allocation exactness theorem at the three equal holders
scenario with a total of ten units. -/
theorem allocate_sum_eq_total_witness :
    ∃ m, allocate [⟨['A'], 100⟩, ⟨['B'], 100⟩, ⟨['C'], 100⟩] 10 [] = .ok m ∧
      m.sumValues = 10 :=
  allocate_sum_eq_total [⟨['A'], 100⟩, ⟨['B'], 100⟩, ⟨['C'], 100⟩] 10 []
    (by decide) (by decide)

/-- C4: allocate fails with NoEligibleHolders exactly when the sum of the
eligible raw balances is zero, and otherwise returns an allocation map; in
particular a run whose only holder is excluded fails this way. -/
theorem allocate_noEligible_iff (rows : List HolderRow) (t : Nat)
    (exc : List (List Char)) :
    ((allocate rows t exc = .error .noEligibleHolders ↔
        eligibleTotalRaw rows exc = 0) ∧
      ((∃ m, allocate rows t exc = .ok m) ↔ 0 < eligibleTotalRaw rows exc)) ∧
    allocate [⟨['a'], 5⟩] 10 [['a']] = .error .noEligibleHolders := by
  refine ⟨?_, by decide⟩
  by_cases hT : eligibleTotalRaw rows exc = 0
  · have herr : allocate rows t exc = .error .noEligibleHolders := by
      unfold allocate
      rw [if_pos hT]
    refine ⟨by simp [herr, hT], ?_, ?_⟩
    · rintro ⟨m, hm⟩
      rw [herr] at hm
      cases hm
    · intro hp
      omega
  · obtain ⟨m, hm⟩ := allocate_exists_ok rows t exc hT
    refine ⟨⟨?_, ?_⟩, ?_, ?_⟩
    · intro h
      rw [hm] at h
      cases h
    · intro h
      exact absurd h hT
    · intro
      exact Nat.pos_of_ne_zero hT
    · intro
      exact ⟨m, hm⟩

/-- C8: in a successful allocation over rows with pairwise-distinct
addresses, every row whose address is in the excluded set (matched
case-insensitively) is mapped to exactly zero, the remainder never being
added to an excluded row. -/
theorem allocate_excluded_zero (rows : List HolderRow) (t : Nat)
    (exc : List (List Char)) (m : AMap)
    (hnodup : (rows.map (fun r => r.address)).Nodup)
    (hok : allocate rows t exc = .ok m) :
    ∀ r ∈ rows, isExcludedAddr exc r.address = true → m.get r.address = some 0 := by
  intro r hr hexc
  have hT : eligibleTotalRaw rows exc ≠ 0 := by
    intro h0
    have herr : allocate rows t exc = .error .noEligibleHolders := by
      unfold allocate
      rw [if_pos h0]
    rw [herr] at hok
    cases hok
  obtain ⟨f, hf, heq⟩ := allocate_ok_shape rows t exc hnodup hT
  rw [hok] at heq
  injection heq with hm
  subst hm
  have hfelig : f ∈ eligibleRows rows exc := head_mem_of_head?_eq hf
  have hfnotexc : isExcludedAddr exc f.address = false := by
    have := (List.mem_filter.mp hfelig).2
    simpa using this
  have hrget := AMap.get_rowMap (rowShare t (eligibleTotalRaw rows exc) exc) rows r hr hnodup
  have hrzero : rowShare t (eligibleTotalRaw rows exc) exc r = 0 := by
    simp [rowShare, hexc]
  by_cases hrem : 0 < t - (rows.map (rowShare t (eligibleTotalRaw rows exc) exc)).sum
  · rw [if_pos hrem]
    have hne : r.address ≠ f.address := by
      intro he
      rw [he] at hexc
      rw [hexc] at hfnotexc
      cases hfnotexc
    rw [AMap.get_set_ne _ _ _ _ hne, hrget, hrzero]
  · rw [if_neg hrem, hrget, hrzero]

/-- Witness for the excluded-zero theorem: with holders a and B, a total of
ten and the lowercased exclusion entry b, the row with address B receives
exactly zero. -/
theorem allocate_excluded_zero_witness :
    AMap.get [(['a'], 10), (['B'], 0)] ['B'] = some 0 :=
  allocate_excluded_zero [⟨['a'], 100⟩, ⟨['B'], 50⟩] 10 [['b']]
    [(['a'], 10), (['B'], 0)] (by decide) (by decide) ⟨['B'], 50⟩
    (by decide) (by decide)

/-- C3: in a successful allocation over rows with pairwise-distinct
addresses, the allocated sum of floor base shares never exceeds the total
(the remainder is non-negative), the first eligible row in input order
receives its base share plus the entire remainder, every other eligible row
receives exactly its floor base share, and the three equal holders scenario
with total ten yields four, three and three. -/
theorem allocate_remainder_assignment (rows : List HolderRow) (t : Nat)
    (exc : List (List Char)) (m : AMap)
    (hnodup : (rows.map (fun r => r.address)).Nodup)
    (hok : allocate rows t exc = .ok m) :
    (((eligibleRows rows exc).map
        (fun r => t * r.rawBalance / eligibleTotalRaw rows exc)).sum ≤ t) ∧
    (∀ f, (eligibleRows rows exc).head? = some f →
      m.get f.address = some (t * f.rawBalance / eligibleTotalRaw rows exc +
        (t - ((eligibleRows rows exc).map
          (fun r => t * r.rawBalance / eligibleTotalRaw rows exc)).sum))) ∧
    (∀ f, (eligibleRows rows exc).head? = some f →
      ∀ r ∈ eligibleRows rows exc, r.address ≠ f.address →
        m.get r.address = some (t * r.rawBalance / eligibleTotalRaw rows exc)) ∧
    allocate [⟨['A'], 100⟩, ⟨['B'], 100⟩, ⟨['C'], 100⟩] 10 [] =
      .ok [(['A'], 4), (['B'], 3), (['C'], 3)] := by
  have hT : eligibleTotalRaw rows exc ≠ 0 := by
    intro h0
    have herr : allocate rows t exc = .error .noEligibleHolders := by
      unfold allocate
      rw [if_pos h0]
    rw [herr] at hok
    cases hok
  have hpos : 0 < eligibleTotalRaw rows exc := Nat.pos_of_ne_zero hT
  obtain ⟨f0, hf0, heq⟩ := allocate_ok_shape rows t exc hnodup hT
  rw [hok] at heq
  injection heq with hm
  subst hm
  have hsubsum : (rows.map (rowShare t (eligibleTotalRaw rows exc) exc)).sum =
      ((eligibleRows rows exc).map
        (fun r => t * r.rawBalance / eligibleTotalRaw rows exc)).sum :=
    sum_rowShare_eq t (eligibleTotalRaw rows exc) exc rows
  have hle : ((eligibleRows rows exc).map
      (fun r => t * r.rawBalance / eligibleTotalRaw rows exc)).sum ≤ t := by
    rw [← hsubsum]
    exact allocated_le_total rows t exc hpos
  have hf0elig : f0 ∈ eligibleRows rows exc := head_mem_of_head?_eq hf0
  have hf0mem : f0 ∈ rows := List.mem_of_mem_filter hf0elig
  have hf0notexc : isExcludedAddr exc f0.address = false := by
    have := (List.mem_filter.mp hf0elig).2
    simpa using this
  have hf0share : rowShare t (eligibleTotalRaw rows exc) exc f0 =
      t * f0.rawBalance / eligibleTotalRaw rows exc := by
    simp [rowShare, hf0notexc]
  have hgetf0 := AMap.get_rowMap (rowShare t (eligibleTotalRaw rows exc) exc)
    rows f0 hf0mem hnodup
  refine ⟨hle, ?_, ?_, by decide⟩
  · intro f hf
    rw [hf0] at hf
    injection hf with hff
    subst hff
    by_cases hrem : 0 < t - (rows.map (rowShare t (eligibleTotalRaw rows exc) exc)).sum
    · rw [if_pos hrem, AMap.get_set_self, hf0share, hsubsum]
    · rw [if_neg hrem, hgetf0, hf0share]
      have hz : t - ((eligibleRows rows exc).map
          (fun r => t * r.rawBalance / eligibleTotalRaw rows exc)).sum = 0 := by
        omega
      rw [hz, Nat.add_zero]
  · intro f hf r hrelig hne
    rw [hf0] at hf
    injection hf with hff
    subst hff
    have hrmem : r ∈ rows := List.mem_of_mem_filter hrelig
    have hrnotexc : isExcludedAddr exc r.address = false := by
      have := (List.mem_filter.mp hrelig).2
      simpa using this
    have hrshare : rowShare t (eligibleTotalRaw rows exc) exc r =
        t * r.rawBalance / eligibleTotalRaw rows exc := by
      simp [rowShare, hrnotexc]
    have hgetr := AMap.get_rowMap (rowShare t (eligibleTotalRaw rows exc) exc)
      rows r hrmem hnodup
    by_cases hrem : 0 < t - (rows.map (rowShare t (eligibleTotalRaw rows exc) exc)).sum
    · rw [if_pos hrem, AMap.get_set_ne _ _ _ _ hne, hgetr, hrshare]
    · rw [if_neg hrem, hgetr, hrshare]

/-- Witness for the remainder assignment theorem: in the three equal
holders scenario the first eligible holder receives four units. -/
theorem allocate_remainder_assignment_witness :
    AMap.get [(['A'], 4), (['B'], 3), (['C'], 3)] ['A'] = some 4 := by
  have h := allocate_remainder_assignment
    [⟨['A'], 100⟩, ⟨['B'], 100⟩, ⟨['C'], 100⟩] 10 []
    [(['A'], 4), (['B'], 3), (['C'], 3)] (by decide) (by decide)
  have h2 := h.2.1 ⟨['A'], 100⟩ (by decide)
  exact h2.trans (by decide)

/-! ## Lemmas about the pagination aggregator -/

theorem applyNodes_append (m : AMap) (ns1 ns2 : List PageNode) :
    applyNodes (applyNodes m ns1) ns2 = applyNodes m (ns1 ++ ns2) := by
  simp [applyNodes, List.foldl_append]

theorem getD_applyNodes (o : List Char) :
    ∀ (ns : List PageNode) (m : AMap),
      ((applyNodes m ns).get o).getD 0 = (m.get o).getD 0 + ownerTotal o ns := by
  intro ns
  induction ns with
  | nil => intro m; simp [applyNodes, ownerTotal]
  | cons n rest ih =>
    intro m
    have hstep : applyNodes m (n :: rest) = applyNodes (addNode m n) rest := by
      simp [applyNodes]
    rw [hstep, ih]
    by_cases ho : n.owner = o
    · have hget : ((addNode m n).get o).getD 0 = (m.get o).getD 0 + n.balance := by
        rw [← ho]
        simp [addNode, AMap.get_set_self]
      rw [hget]
      simp [ownerTotal, List.filter_cons, ho]
      omega
    · have hget : ((addNode m n).get o).getD 0 = (m.get o).getD 0 := by
        simp [addNode, AMap.get_set_ne _ _ _ _ (fun he => ho he.symm)]
      rw [hget]
      simp [ownerTotal, List.filter_cons, ho]

/-- C6: aggregation is additive across pages.  Folding two node lists one
after the other equals folding their concatenation, the total recorded for
an owner equals the sum of that owner's balances over the nodes seen, and
the two-page scenario with entries A one hundred and B fifty followed by A
twenty-five produces the balance map with A at one hundred twenty-five and
B at fifty. -/
theorem aggregation_additive (m : AMap) (ns1 ns2 : List PageNode) (o : List Char)
    (ns : List PageNode) :
    applyNodes (applyNodes m ns1) ns2 = applyNodes m (ns1 ++ ns2) ∧
    ((applyNodes AMap.empty ns).get o).getD 0 = ownerTotal o ns ∧
    runPages
      [some ⟨some [⟨['A'], 100⟩, ⟨['B'], 50⟩], some ⟨true⟩⟩,
        some ⟨some [⟨['A'], 25⟩], some ⟨false⟩⟩]
      AMap.empty = .ok [(['A'], 125), (['B'], 50)] := by
  refine ⟨applyNodes_append m ns1 ns2, ?_, by decide⟩
  rw [getD_applyNodes]
  simp [AMap.empty, AMap.get]

/-- C10: a payload whose connection is present but whose node list is
absent raises no error and leaves the balance map unchanged, the loop
continuing or stopping solely according to the hasNextPage flag, while a
payload missing the connection object fails with MalformedResponse. -/
theorem missing_nodes_tolerated (m : AMap) (c : Connection) (rest : List Payload)
    (hnodes : c.nodes = none) :
    stepPage m (some c) = .ok (m, hasNext c) ∧
    runPages (some c :: rest) m =
      (if hasNext c then runPages rest m else .ok m) ∧
    stepPage m none = .error .malformedResponse := by
  have hstep : stepPage m (some c) = .ok (m, hasNext c) := by
    simp [stepPage, hnodes, applyNodes]
  refine ⟨hstep, ?_, rfl⟩
  simp [runPages, hstep]

/-- Witness for the missing node list theorem on a concrete connection
carrying no node list and a continuation flag that is off. -/
theorem missing_nodes_tolerated_witness :
    stepPage [(['A'], 7)] (some ⟨none, some ⟨false⟩⟩) =
      .ok ([(['A'], 7)], hasNext ⟨none, some ⟨false⟩⟩) ∧
    runPages [some ⟨none, some ⟨false⟩⟩] [(['A'], 7)] =
      (if hasNext ⟨none, some ⟨false⟩⟩ then runPages [] [(['A'], 7)]
        else .ok [(['A'], 7)]) ∧
    stepPage [(['A'], 7)] none = .error .malformedResponse :=
  missing_nodes_tolerated [(['A'], 7)] ⟨none, some ⟨false⟩⟩ [] (by decide)

/-! ## Lemmas about command-line parsing -/

theorem parseArgsLoop_airdrop_stays :
    ∀ (args : List (List Char)) (ad : Option (List Char)) (exc : List (List Char)),
      airdropFlag ∉ args →
      ∀ a e, parseArgsLoop args ad exc = .ok (a, e) → a = ad := by
  intro args
  match args with
  | [] =>
    intro ad exc _ a e h
    simp only [parseArgsLoop, Except.ok.injEq, Prod.mk.injEq] at h
    exact h.1.symm
  | arg :: rest =>
    intro ad exc hmem a e h
    have harg : arg ≠ airdropFlag := fun he => hmem (he ▸ List.mem_cons_self arg rest)
    rw [parseArgsLoop.eq_def] at h
    dsimp only at h
    rw [if_neg harg] at h
    by_cases hexc : arg = excludeFlag
    · rw [if_pos hexc] at h
      match rest with
      | [] => cases h
      | v :: rest2 =>
        dsimp only at h
        by_cases hv : v = [] ∨ startsDashDash v
        · rw [if_pos hv] at h
          cases h
        · rw [if_neg hv] at h
          have hmem2 : airdropFlag ∉ rest2 := fun hx =>
            hmem (List.mem_cons_of_mem arg (List.mem_cons_of_mem v hx))
          exact parseArgsLoop_airdrop_stays rest2 ad (addSplitAddresses exc v) hmem2 a e h
    · rw [if_neg hexc] at h
      cases h

/-- C9 counterexample: the claim that passing the exclusion flag without
the allocation flag always fails is false, because an exclusion value whose
comma-separated pieces are all empty leaves the excluded set empty and the
check never fires: the invocation with coin address, exclude flag and the
bare comma value parses successfully. -/
theorem excludeWithoutAirdrop_counterexample :
    parseCliArgs ["coin".toList, "--exclude".toList, [',']] =
      .ok ⟨"coin".toList, none, []⟩ := by decide

/-- C9 as amended: when the allocation flag is absent from the invocation,
any successful parse records no airdrop amount and an empty excluded set;
hence passing the exclusion flag with at least one non-empty address and no
allocation flag cannot succeed. -/
theorem parseCliArgs_exclude_needs_airdrop (argv : List (List Char)) (r : CliArgs)
    (hnoflag : airdropFlag ∉ argv)
    (hok : parseCliArgs argv = .ok r) :
    r.airdropAmount = none ∧ r.excludedAddresses = [] := by
  match argv with
  | [] => cases hok
  | first :: rest =>
    rw [parseCliArgs] at hok
    by_cases hc : jsTrim first = [] ∨ startsDashDash (jsTrim first)
    · rw [if_pos hc] at hok
      cases hok
    · rw [if_neg hc] at hok
      cases hloop : parseArgsLoop rest none [] with
      | error e => rw [hloop] at hok; cases hok
      | ok p =>
        obtain ⟨ad, exc⟩ := p
        have hmem : airdropFlag ∉ rest := fun hx =>
          hnoflag (List.mem_cons_of_mem first hx)
        have had : ad = none :=
          parseArgsLoop_airdrop_stays rest none [] hmem ad exc hloop
        subst had
        rw [hloop] at hok
        dsimp only at hok
        by_cases hne : exc ≠ [] ∧ (none : Option (List Char)) = none
        · rw [if_pos hne] at hok
          cases hok
        · rw [if_neg hne] at hok
          injection hok with hr
          subst hr
          have hexcnil : exc = [] := by
            by_cases h2 : exc = []
            · exact h2
            · exact absurd ⟨h2, rfl⟩ hne
          exact ⟨rfl, hexcnil⟩

/-- Witness for the amended exclusion claim at the counterexample
invocation: the parse succeeds and records no exclusions. -/
theorem parseCliArgs_exclude_needs_airdrop_witness :
    (⟨"coin".toList, none, []⟩ : CliArgs).airdropAmount = none ∧
      (⟨"coin".toList, none, []⟩ : CliArgs).excludedAddresses = [] :=
  parseCliArgs_exclude_needs_airdrop
    ["coin".toList, "--exclude".toList, [',']] ⟨"coin".toList, none, []⟩
    (by decide) (by decide)

/-! ## Lemmas about decimal digit strings -/

theorem digitVal_digitChar (d : Nat) (hd : d < 10) : digitVal (digitChar d) = d := by
  interval_cases d <;> decide

theorem isDigitChar_digitChar (d : Nat) (hd : d < 10) :
    isDigitChar (digitChar d) = true := by
  interval_cases d <;> decide

theorem digitCharsAux_eq :
    ∀ (fuel n : Nat) (acc : List Char), 0 < n → n ≤ fuel →
      digitCharsAux fuel n acc = ((Nat.digits 10 n).map digitChar).reverse ++ acc := by
  intro fuel
  induction fuel with
  | zero => intro n acc hn hle; omega
  | succ fuel ih =>
    intro n acc hn hle
    rw [digitCharsAux]
    by_cases hsmall : n < 10
    · rw [if_pos hsmall]
      have hdig : Nat.digits 10 n = [n] := by
        rw [Nat.digits_def' (by norm_num) hn, Nat.div_eq_of_lt hsmall,
          Nat.mod_eq_of_lt hsmall, Nat.digits_zero]
      rw [hdig]
      simp [Nat.mod_eq_of_lt hsmall]
    · rw [if_neg hsmall]
      have hq : 0 < n / 10 := Nat.div_pos (by omega) (by norm_num)
      have hqle : n / 10 ≤ fuel := by
        have := Nat.div_lt_self hn (by norm_num : 1 < 10)
        omega
      rw [ih (n / 10) _ hq hqle]
      rw [Nat.digits_def' (by norm_num : 1 < 10) hn]
      simp

theorem natRepr_zero : natRepr 0 = ['0'] := rfl

theorem natRepr_pos (n : Nat) (hn : 0 < n) :
    natRepr n = ((Nat.digits 10 n).map digitChar).reverse := by
  rw [natRepr, digitCharsAux_eq (n + 1) n [] hn (by omega), List.append_nil]

theorem parseDigits_foldl (cs : List Char) :
    ∀ acc : Nat,
      cs.foldl (fun a c => 10 * a + digitVal c) acc =
        acc * 10 ^ cs.length + Nat.ofDigits 10 ((cs.map digitVal).reverse) := by
  induction cs with
  | nil => intro acc; simp [Nat.ofDigits]
  | cons c rest ih =>
    intro acc
    rw [List.foldl_cons, ih]
    have happ : Nat.ofDigits 10 ((rest.map digitVal).reverse ++ [digitVal c]) =
        Nat.ofDigits 10 ((rest.map digitVal).reverse) +
          10 ^ rest.length * digitVal c := by
      have h2 : Nat.ofDigits 10 ((rest.map digitVal).reverse ++ [digitVal c]) =
          Nat.ofDigits 10 ((rest.map digitVal).reverse) +
            (10 : Nat) ^ ((rest.map digitVal).reverse).length *
              Nat.ofDigits 10 [digitVal c] := by
        exact_mod_cast Nat.ofDigits_append
      rw [h2, Nat.ofDigits_singleton]
      simp
    simp only [List.map_cons, List.reverse_cons, happ, List.length_cons]
    ring

theorem parseDigits_eq_ofDigits (cs : List Char) :
    parseDigits cs = Nat.ofDigits 10 ((cs.map digitVal).reverse) := by
  rw [parseDigits, parseDigits_foldl]
  simp

theorem parseDigits_natRepr (n : Nat) : parseDigits (natRepr n) = n := by
  by_cases hn : 0 < n
  · rw [natRepr_pos n hn, parseDigits_eq_ofDigits]
    rw [List.map_reverse, List.reverse_reverse, List.map_map]
    have hcongr : (Nat.digits 10 n).map (digitVal ∘ digitChar) =
        (Nat.digits 10 n).map id := by
      apply List.map_congr_left
      intro d hd
      exact digitVal_digitChar d (Nat.digits_lt_base (by norm_num) hd)
    rw [hcongr, List.map_id]
    exact Nat.ofDigits_digits 10 n
  · have hz : n = 0 := by omega
    subst hz
    decide

theorem natRepr_all_digits (n : Nat) : ∀ c ∈ natRepr n, isDigitChar c = true := by
  by_cases hn : 0 < n
  · rw [natRepr_pos n hn]
    intro c hc
    rw [List.mem_reverse] at hc
    obtain ⟨d, hd, hdc⟩ := List.mem_map.mp hc
    rw [← hdc]
    exact isDigitChar_digitChar d (Nat.digits_lt_base (by norm_num) hd)
  · have hz : n = 0 := by omega
    subst hz
    intro c hc
    rw [natRepr_zero] at hc
    simp at hc
    subst hc
    decide

theorem natRepr_ne_nil (n : Nat) : natRepr n ≠ [] := by
  by_cases hn : 0 < n
  · rw [natRepr_pos n hn]
    simp [Nat.digits_ne_nil_iff_ne_zero.mpr (by omega : n ≠ 0)]
  · have hz : n = 0 := by omega
    subst hz
    decide

theorem parseDigits_zeros_append (cs : List Char) :
    ∀ k : Nat, parseDigits (List.replicate k '0' ++ cs) = parseDigits cs := by
  intro k
  induction k with
  | zero => rfl
  | succ k ih =>
    rw [List.replicate_succ, List.cons_append, parseDigits, List.foldl_cons]
    have hv : 10 * 0 + digitVal '0' = 0 := by decide
    rw [hv]
    exact ih

theorem digit_not_ws (c : Char) (h : isDigitChar c = true) :
    isJsWhitespace c = false := by
  simp only [isDigitChar, Bool.and_eq_true, decide_eq_true_eq] at h
  simp only [isJsWhitespace, Bool.or_eq_false_iff, decide_eq_false_iff_not]
  omega

theorem digit_ne_dot (c : Char) (h : isDigitChar c = true) : c ≠ '.' := by
  intro he
  subst he
  cases h

theorem dot_not_ws : isJsWhitespace '.' = false := by decide

theorem dropWhile_eq_self_of_all {p : Char → Bool} {l : List Char}
    (h : ∀ c ∈ l, p c = false) : l.dropWhile p = l := by
  cases l with
  | nil => rfl
  | cons c rest =>
    rw [List.dropWhile_cons, h c (List.mem_cons_self c rest)]
    simp

theorem jsTrim_eq_self (s : List Char) (h : ∀ c ∈ s, isJsWhitespace c = false) :
    jsTrim s = s := by
  rw [jsTrim, dropWhile_eq_self_of_all h, dropWhile_eq_self_of_all, List.reverse_reverse]
  intro c hc
  exact h c (List.mem_reverse.mp hc)

theorem takeWhile_append_all {p : Char → Bool} :
    ∀ (l1 l2 : List Char), (∀ c ∈ l1, p c = true) →
      (l1 ++ l2).takeWhile p = l1 ++ l2.takeWhile p := by
  intro l1 l2
  induction l1 with
  | nil => intro _; simp
  | cons c rest ih =>
    intro h
    have hc := h c (List.mem_cons_self c rest)
    have ih2 := ih (fun c2 hc2 => h c2 (List.mem_cons_of_mem c hc2))
    simp [List.takeWhile_cons, hc, ih2]

theorem dropWhile_append_all {p : Char → Bool} :
    ∀ (l1 l2 : List Char), (∀ c ∈ l1, p c = true) →
      (l1 ++ l2).dropWhile p = l2.dropWhile p := by
  intro l1 l2
  induction l1 with
  | nil => intro _; simp
  | cons c rest ih =>
    intro h
    rw [List.cons_append, List.dropWhile_cons, h c (List.mem_cons_self c rest)]
    simp only [if_true]
    exact ih (fun c2 hc2 => h c2 (List.mem_cons_of_mem c hc2))

theorem takeWhile_eq_self_of_all {p : Char → Bool} (l : List Char)
    (h : ∀ c ∈ l, p c = true) : l.takeWhile p = l := by
  have h2 := takeWhile_append_all l [] h
  simpa using h2

theorem dropWhile_eq_nil_of_all {p : Char → Bool} (l : List Char)
    (h : ∀ c ∈ l, p c = true) : l.dropWhile p = [] := by
  have h2 := dropWhile_append_all l [] h
  simpa using h2

theorem rstripZeros_decomp (s : List Char) :
    ∃ k, s = rstripZeros s ++ List.replicate k '0' := by
  refine ⟨(s.reverse.takeWhile (fun c => decide (c = '0'))).length, ?_⟩
  have hsplit := List.takeWhile_append_dropWhile (fun c => decide (c = '0')) s.reverse
  have htake : s.reverse.takeWhile (fun c => decide (c = '0')) =
      List.replicate (s.reverse.takeWhile (fun c => decide (c = '0'))).length '0' := by
    apply List.eq_replicate_of_mem
    intro b hb
    have := List.mem_takeWhile_imp hb
    exact of_decide_eq_true this
  calc s = s.reverse.reverse := (List.reverse_reverse s).symm
    _ = (s.reverse.takeWhile (fun c => decide (c = '0')) ++
          s.reverse.dropWhile (fun c => decide (c = '0'))).reverse := by rw [hsplit]
    _ = rstripZeros s ++ List.replicate
          (s.reverse.takeWhile (fun c => decide (c = '0'))).length '0' := by
        rw [List.reverse_append, rstripZeros]
        rw [htake]
        rw [List.reverse_replicate, List.length_replicate]

theorem rstripZeros_subset (s : List Char) : ∀ c ∈ rstripZeros s, c ∈ s := by
  intro c hc
  rw [rstripZeros, List.mem_reverse] at hc
  have := (List.dropWhile_sublist (l := s.reverse) (p := fun c => decide (c = '0'))).mem hc
  exact List.mem_reverse.mp this

/-! ## Lemmas about the unit converter -/

theorem parseUnits_digits_only (int : List Char) (d : Int)
    (hne : int ≠ []) (hdig : ∀ c ∈ int, isDigitChar c = true) (hd : 0 ≤ d) :
    parseUnits int d = .ok (parseDigits (int ++ List.replicate d.toNat '0')) := by
  have htrim : jsTrim int = int :=
    jsTrim_eq_self int (fun c hc => digit_not_ws c (hdig c hc))
  have hmatch : decMatches int = true := by
    rw [decMatches, takeWhile_eq_self_of_all int hdig, dropWhile_eq_nil_of_all int hdig]
    cases int with
    | nil => exact absurd rfl hne
    | cons c rest => rfl
  have htake : int.takeWhile (fun c => !decide (c = '.')) = int := by
    apply takeWhile_eq_self_of_all
    intro c hc
    simp [digit_ne_dot c (hdig c hc)]
  have hdrop : int.dropWhile (fun c => !decide (c = '.')) = [] := by
    apply dropWhile_eq_nil_of_all
    intro c hc
    simp [digit_ne_dot c (hdig c hc)]
  rw [parseUnits]
  simp only [htrim, hmatch, if_true, htake, hdrop, List.drop_nil, List.length_nil,
    Nat.cast_zero]
  rw [if_neg (by omega)]
  by_cases hd0 : 0 < d
  · rw [if_pos hd0]
    simp [padRight]
  · rw [if_neg hd0]
    have hz : d.toNat = 0 := by omega
    rw [hz]
    simp

theorem parseUnits_with_dot (int fr : List Char) (d : Int)
    (hine : int ≠ []) (hidig : ∀ c ∈ int, isDigitChar c = true)
    (hfne : fr ≠ []) (hfdig : ∀ c ∈ fr, isDigitChar c = true)
    (hlen : (fr.length : Int) ≤ d) :
    parseUnits (int ++ '.' :: fr) d =
      .ok (parseDigits (int ++ padRight fr d.toNat '0')) := by
  have hfrpos : 0 < fr.length := List.length_pos.mpr hfne
  have hd1 : 0 < d := by omega
  have htrim : jsTrim (int ++ '.' :: fr) = int ++ '.' :: fr := by
    apply jsTrim_eq_self
    intro c hc
    rcases List.mem_append.mp hc with h | h
    · exact digit_not_ws c (hidig c h)
    · rcases List.mem_cons.mp h with h2 | h2
      · rw [h2]; exact dot_not_ws
      · exact digit_not_ws c (hfdig c h2)
  have hdotnd : isDigitChar '.' = false := by decide
  have htake2 : (int ++ '.' :: fr).takeWhile isDigitChar = int := by
    rw [takeWhile_append_all int _ hidig, List.takeWhile_cons, hdotnd]
    simp
  have hdrop2 : (int ++ '.' :: fr).dropWhile isDigitChar = '.' :: fr := by
    rw [dropWhile_append_all int _ hidig, List.dropWhile_cons, hdotnd]
    simp
  have hmatch : decMatches (int ++ '.' :: fr) = true := by
    rw [decMatches, htake2, hdrop2]
    have h1 : int.isEmpty = false := by
      cases int with
      | nil => exact absurd rfl hine
      | cons _ _ => rfl
    have h2 : fr.isEmpty = false := by
      cases fr with
      | nil => exact absurd rfl hfne
      | cons _ _ => rfl
    have h3 : fr.all isDigitChar = true := List.all_eq_true.mpr hfdig
    simp [h1, h2, h3]
  have hpdot : ∀ c ∈ int, (!decide (c = '.')) = true := by
    intro c hc
    simp [digit_ne_dot c (hidig c hc)]
  have htakeDot : (int ++ '.' :: fr).takeWhile (fun c => !decide (c = '.')) = int := by
    rw [takeWhile_append_all int _ hpdot, List.takeWhile_cons]
    simp
  have hdropDot : (int ++ '.' :: fr).dropWhile (fun c => !decide (c = '.')) =
      '.' :: fr := by
    rw [dropWhile_append_all int _ hpdot, List.dropWhile_cons]
    simp
  rw [parseUnits]
  simp only [htrim, hmatch, if_true, htakeDot, hdropDot, List.drop_succ_cons,
    List.drop_zero]
  rw [if_neg (by omega), if_pos hd1]

theorem roundTrip_core (r dd : Nat) (s : List Char) (hdd : 0 < dd)
    (hslen : dd < s.length) (hsdig : ∀ c ∈ s, isDigitChar c = true)
    (hsparse : parseDigits s = r) :
    parseUnits
      (if (rstripZeros (s.drop (s.length - dd))).isEmpty then s.take (s.length - dd)
       else s.take (s.length - dd) ++ '.' :: rstripZeros (s.drop (s.length - dd)))
      (dd : Int) = .ok r := by
  obtain ⟨kz, hdecomp⟩ := rstripZeros_decomp (s.drop (s.length - dd))
  have hiplen : (s.take (s.length - dd)).length = s.length - dd := by
    rw [List.length_take]
    omega
  have hipne : s.take (s.length - dd) ≠ [] := by
    intro he
    have hl := congrArg List.length he
    rw [hiplen] at hl
    simp at hl
    omega
  have hipdig : ∀ c ∈ s.take (s.length - dd), isDigitChar c = true :=
    fun c hc => hsdig c (List.take_subset _ s hc)
  have hfplen : (s.drop (s.length - dd)).length = dd := by
    rw [List.length_drop]
    omega
  have hfpdig : ∀ c ∈ s.drop (s.length - dd), isDigitChar c = true :=
    fun c hc => hsdig c (List.drop_subset _ s hc)
  have hfrdig : ∀ c ∈ rstripZeros (s.drop (s.length - dd)), isDigitChar c = true :=
    fun c hc => hfpdig c (rstripZeros_subset _ c hc)
  have hlensum : (rstripZeros (s.drop (s.length - dd))).length + kz = dd := by
    have hl := congrArg List.length hdecomp
    rw [hfplen] at hl
    simp only [List.length_append, List.length_replicate] at hl
    omega
  have htn : ((dd : Int)).toNat = dd := by simp
  by_cases hem : (rstripZeros (s.drop (s.length - dd))).isEmpty
  · rw [if_pos hem]
    have hfrnil : rstripZeros (s.drop (s.length - dd)) = [] := List.isEmpty_iff.mp hem
    rw [parseUnits_digits_only _ _ hipne hipdig (by omega), htn]
    have hkz : kz = dd := by
      rw [hfrnil] at hlensum
      simpa using hlensum
    have hfrac : s.drop (s.length - dd) = List.replicate dd '0' := by
      rw [hdecomp, hfrnil, hkz]
      simp
    rw [← hfrac, List.take_append_drop, hsparse]
  · rw [if_neg hem]
    have hfrne : rstripZeros (s.drop (s.length - dd)) ≠ [] := by
      intro he
      rw [he] at hem
      simp at hem
    have hlenle : ((rstripZeros (s.drop (s.length - dd))).length : Int) ≤ (dd : Int) := by
      omega
    rw [parseUnits_with_dot _ _ _ hipne hipdig hfrne hfrdig hlenle, htn]
    have hpad : padRight (rstripZeros (s.drop (s.length - dd))) dd '0' =
        s.drop (s.length - dd) := by
      rw [padRight]
      have hk2 : dd - (rstripZeros (s.drop (s.length - dd))).length = kz := by omega
      rw [hk2, ← hdecomp]
    rw [hpad, List.take_append_drop, hsparse]

/-- C2: the unit converter round trips: for every non-negative integer raw
amount and every decimals count, parsing the display string produced by
formatUnits with parseUnits yields back exactly the original integer. -/
theorem parseUnits_formatUnits_roundTrip (r d : Nat) :
    parseUnits (formatUnits r (d : Int)) (d : Int) = .ok r := by
  cases d with
  | zero =>
    have h0 : formatUnits r ((0 : Nat) : Int) = natRepr r := by
      rw [formatUnits, if_pos (by simp)]
    rw [h0, parseUnits_digits_only (natRepr r) _ (natRepr_ne_nil r)
      (natRepr_all_digits r) (by simp)]
    have hz : (((0 : Nat) : Int)).toNat = 0 := by simp
    rw [hz]
    simp [parseDigits_natRepr]
  | succ k =>
    have hneg : ¬(((k + 1 : Nat) : Int) ≤ 0) := by omega
    have htn : (((k + 1 : Nat) : Int)).toNat = k + 1 := by simp
    have hfmt : formatUnits r ((k + 1 : Nat) : Int) =
        (if (rstripZeros ((padLeft (natRepr r) (k + 1 + 1) '0').drop
              ((padLeft (natRepr r) (k + 1 + 1) '0').length - (k + 1)))).isEmpty then
          (padLeft (natRepr r) (k + 1 + 1) '0').take
            ((padLeft (natRepr r) (k + 1 + 1) '0').length - (k + 1))
        else
          (padLeft (natRepr r) (k + 1 + 1) '0').take
              ((padLeft (natRepr r) (k + 1 + 1) '0').length - (k + 1)) ++
            '.' :: rstripZeros ((padLeft (natRepr r) (k + 1 + 1) '0').drop
              ((padLeft (natRepr r) (k + 1 + 1) '0').length - (k + 1)))) := by
      rw [formatUnits, if_neg hneg, htn]
    rw [hfmt]
    apply roundTrip_core r (k + 1) (padLeft (natRepr r) (k + 1 + 1) '0') (by omega)
    · rw [padLeft, List.length_append, List.length_replicate]
      omega
    · intro c hc
      rw [padLeft] at hc
      rcases List.mem_append.mp hc with h | h
      · rw [List.eq_of_mem_replicate h]
        decide
      · exact natRepr_all_digits r c h
    · rw [padLeft, parseDigits_zeros_append, parseDigits_natRepr]

/-- C5 counterexample: the claim that parseUnits rejects with InvalidAmount
exactly the strings that do not match the digits-dot-digits pattern is
false, because the input is trimmed first: the string of a space followed
by the digit one does not match the pattern, yet parseUnits accepts it. -/
theorem parseUnits_trim_counterexample :
    decMatches [' ', '1'] = false ∧ parseUnits [' ', '1'] 0 = .ok 1 := by decide

/-- C5 as amended: after trimming surrounding whitespace, parseUnits fails
with InvalidAmount exactly when the trimmed string does not match one or
more digits optionally followed by a dot and one or more digits, fails
with PrecisionOverflow when it matches but the fractional part has more
digits than the decimals count, and otherwise returns the integer read from
the integer part concatenated with the fractional part right-padded with
zeros to the decimals count; the four fractional digits of the canonical
example overflow a two-decimals budget. -/
theorem parseUnits_error_spec (s : List Char) (d : Nat) :
    (parseUnits s (d : Int) = .error .invalidAmount ↔
      decMatches (jsTrim s) = false) ∧
    (decMatches (jsTrim s) = true →
      d < (((jsTrim s).dropWhile (fun c => !decide (c = '.'))).drop 1).length →
      parseUnits s (d : Int) = .error .precisionOverflow) ∧
    (decMatches (jsTrim s) = true →
      (((jsTrim s).dropWhile (fun c => !decide (c = '.'))).drop 1).length ≤ d →
      parseUnits s (d : Int) = .ok (parseDigits
        ((jsTrim s).takeWhile (fun c => !decide (c = '.')) ++
          padRight (((jsTrim s).dropWhile (fun c => !decide (c = '.'))).drop 1)
            d '0'))) ∧
    parseUnits ("1.2345".toList) 2 = .error .precisionOverflow := by
  refine ⟨?_, ?_, ?_, by decide⟩
  · by_cases hm : decMatches (jsTrim s) = true
    · rw [parseUnits]
      simp only [hm, if_true]
      constructor
      · intro h
        split at h
        · injection h with h2
          exact UnitsError.noConfusion h2
        · exact Except.noConfusion h
      · intro h
        exact absurd h (by decide)
    · have hm2 : decMatches (jsTrim s) = false := by simpa using hm
      rw [parseUnits]
      simp [hm2]
  · intro hm hlen
    rw [parseUnits]
    simp only [hm, if_true]
    rw [if_pos (by omega)]
  · intro hm hlen
    rw [parseUnits]
    simp only [hm, if_true]
    rw [if_neg (by omega)]
    by_cases hd : 0 < (d : Int)
    · rw [if_pos hd]
      have htn : ((d : Int)).toNat = d := by simp
      rw [htn]
    · rw [if_neg hd]
      have hd0 : d = 0 := by omega
      subst hd0
      have hfr : (((jsTrim s).dropWhile (fun c => !decide (c = '.'))).drop 1) = [] := by
        have : ((((jsTrim s).dropWhile (fun c => !decide (c = '.'))).drop 1)).length = 0 := by
          omega
        exact List.length_eq_zero.mp this
      rw [hfr]
      rfl

/-- Witness for the amended parseUnits error theorem: the canonical example
with four fractional digits against two decimals overflows, obtained from
the PrecisionOverflow conjunct at that concrete input. -/
theorem parseUnits_error_spec_witness :
    parseUnits ("1.2345".toList) 2 = .error .precisionOverflow :=
  (parseUnits_error_spec ("1.2345".toList) 2).2.1 (by decide) (by decide)

/-- C7: formatUnits agrees with the specification rendering rule on every
input, and the decimals six examples produce the strings for one, one point
five and zero. -/
theorem formatUnits_spec (raw : Nat) (decimals : Int) :
    formatUnits raw decimals = formatUnitsSpec raw decimals ∧
    (decimals ≤ 0 → formatUnits raw decimals = natRepr raw) ∧
    formatUnits 1000000 6 = "1".toList ∧
    formatUnits 1500000 6 = "1.5".toList ∧
    formatUnits 0 6 = "0".toList := by
  refine ⟨?_, ?_, by decide, by decide, by decide⟩
  · by_cases hd : decimals ≤ 0
    · rw [formatUnits, formatUnitsSpec, if_pos hd, if_pos hd]
    · rw [formatUnits, formatUnitsSpec, if_neg hd, if_neg hd]
      simp only [List.drop_reverse, List.take_reverse, List.reverse_reverse]
  · intro hd
    rw [formatUnits, if_pos hd]

/-- Witness for the formatUnits specification theorem: with zero decimals
the rendering is the plain decimal string, here at raw seven. -/
theorem formatUnits_spec_witness : formatUnits 7 0 = natRepr 7 :=
  (formatUnits_spec 7 0).2.1 (by decide)
